import Mathlib

/-!
Verification of the pagination / ordering / toggle subsystem of the
tweakerwithreact repository against its specification.

The development shallowly embeds the TypeScript source:

* JavaScript strings are modelled as `List Char`; MongoDB ObjectId values and
  millisecond timestamps are modelled as `Nat` (ObjectId comparison is a total
  order, and the `toISOString` rendering of a millisecond value is injective,
  so a decimal rendering stands in for the ISO wire form).
* `$addToSet` / `$pull` on a Mongo array become `addToSet` / `pull` on lists.
* The feed routes (`GET /posts/feed/global`, `GET /posts/user/:username`) are
  embedded twice, at two levels of abstraction that the claims need:
  `pageS` works on raw cursor strings exactly as `buildCursorQuery` does
  (for the cursor-robustness claim), while `page` works on decoded
  `(timestamp, id)` cursors (for the ordering-walk and next-cursor claims).
-/

namespace Tweaker

/-- A feed record as the ordering engine sees it: the Mongo `Tweet` document
restricted to the two fields the sort and the cursor predicate read,
`createdAt` (milliseconds) and `_id` (an abstract totally ordered id). -/
structure PostRec where
  createdAt : Nat
  id : Nat
deriving DecidableEq, Repr

/-- Strict "older" order on records: the lexicographic order on
`(createdAt, _id)` that the Mongo sort `{ createdAt: -1, _id: -1 }` and the
cursor predicate `createdAt < ts ∨ (createdAt = ts ∧ _id < id)` induce. -/
def keyLt (a b : PostRec) : Prop :=
  a.createdAt < b.createdAt ∨ (a.createdAt = b.createdAt ∧ a.id < b.id)

instance : DecidableRel keyLt := fun a b => by
  unfold keyLt; infer_instance

/-- Non-strict descending page order: `a` comes no later than `b` in the feed
iff `b` is older than `a` or they are the same record. -/
def ordDesc (a b : PostRec) : Prop := keyLt b a ∨ a = b

instance : DecidableRel ordDesc := fun a b => by
  unfold ordDesc; infer_instance

theorem keyLt_asymm {a b : PostRec} (h : keyLt a b) : ¬ keyLt b a := by
  rcases h with h | ⟨he, hi⟩ <;> rintro (h' | ⟨he', hi'⟩) <;> omega

theorem keyLt_irrefl (a : PostRec) : ¬ keyLt a a := by
  rintro (h | ⟨_, h⟩) <;> omega

theorem keyLt_trans {a b c : PostRec} (h1 : keyLt a b) (h2 : keyLt b c) : keyLt a c := by
  rcases h1 with h1 | ⟨h1e, h1i⟩ <;> rcases h2 with h2 | ⟨h2e, h2i⟩
  · exact Or.inl (Nat.lt_trans h1 h2)
  · exact Or.inl (h2e ▸ h1)
  · exact Or.inl (h1e ▸ h2)
  · exact Or.inr ⟨h1e.trans h2e, Nat.lt_trans h1i h2i⟩

theorem keyLt_total (a b : PostRec) : keyLt a b ∨ a = b ∨ keyLt b a := by
  rcases a with ⟨ta, ia⟩; rcases b with ⟨tb, ib⟩
  rcases Nat.lt_trichotomy ta tb with h | h | h
  · exact Or.inl (Or.inl h)
  · rcases Nat.lt_trichotomy ia ib with h' | h' | h'
    · exact Or.inl (Or.inr ⟨h, h'⟩)
    · subst h; subst h'; exact Or.inr (Or.inl rfl)
    · exact Or.inr (Or.inr (Or.inr ⟨h.symm, h'⟩))
  · exact Or.inr (Or.inr (Or.inl h))

instance : IsTotal PostRec ordDesc :=
  ⟨fun a b => by
    rcases keyLt_total a b with h | h | h
    · exact Or.inr (Or.inl h)
    · exact Or.inl (Or.inr h)
    · exact Or.inl (Or.inl h)⟩

instance : IsTrans PostRec ordDesc :=
  ⟨fun a b c h1 h2 => by
    rcases h1 with h1 | rfl <;> rcases h2 with h2 | rfl
    · exact Or.inl (keyLt_trans h2 h1)
    · exact Or.inl h1
    · exact Or.inl h2
    · exact Or.inr rfl⟩

instance : IsAntisymm PostRec (fun a b => keyLt b a) :=
  ⟨fun _ _ h1 h2 => absurd h1 (keyLt_asymm h2)⟩

/-- The storage-level sort `{ createdAt: -1, _id: -1 }`: newest first,
ties broken by identifier descending. -/
def sortDesc (l : List PostRec) : List PostRec := l.insertionSort ordDesc

/-- A list arranged newest-first with the mandatory id tiebreak: every later
element is strictly older in the `(createdAt, id)` order. -/
def SortedD (l : List PostRec) : Prop := l.Pairwise (fun a b => keyLt b a)

theorem sortDesc_perm (l : List PostRec) : List.Perm (sortDesc l) l :=
  List.perm_insertionSort _ _

theorem sortDesc_sorted (l : List PostRec) : (sortDesc l).Pairwise ordDesc :=
  List.sorted_insertionSort _ _

theorem sortedD_of_nodup {l : List PostRec} (hs : l.Pairwise ordDesc) (hn : l.Nodup) :
    SortedD l := by
  refine (hs.and hn).imp ?_
  rintro a b ⟨h | rfl, hne⟩
  · exact h
  · exact absurd rfl hne

theorem sortDesc_sortedD {l : List PostRec} (hn : l.Nodup) : SortedD (sortDesc l) :=
  sortedD_of_nodup (sortDesc_sorted l) (((sortDesc_perm l).nodup_iff).mpr hn)

theorem sortedD_eq_of_perm {l₁ l₂ : List PostRec} (hp : List.Perm l₁ l₂)
    (h₁ : SortedD l₁) (h₂ : SortedD l₂) : l₁ = l₂ :=
  List.eq_of_perm_of_sorted (r := fun a b => keyLt b a) hp h₁ h₂

/-! ### Toggle Engine: Mongo array primitives and the like / repost / follow routes -/

/-- Mongo `$addToSet`: append the element if it is absent, otherwise leave the
array unchanged. -/
def addToSet (l : List Nat) (u : Nat) : List Nat :=
  if u ∈ l then l else l ++ [u]

/-- Mongo `$pull`: remove every occurrence of the element. -/
def pull (l : List Nat) (u : Nat) : List Nat :=
  l.filter (fun x => x != u)

theorem mem_addToSet_self (l : List Nat) (u : Nat) : u ∈ addToSet l u := by
  unfold addToSet
  by_cases h : u ∈ l
  · simp [h]
  · simp [h]

theorem addToSet_of_mem {l : List Nat} {u : Nat} (h : u ∈ l) : addToSet l u = l := by
  simp [addToSet, h]

theorem not_mem_pull (l : List Nat) (u : Nat) : u ∉ pull l u := by
  intro h
  have := (List.mem_filter.mp h).2
  simp at this

theorem pull_of_not_mem {l : List Nat} {u : Nat} (h : u ∉ l) : pull l u = l := by
  refine List.filter_eq_self.mpr (fun x hx => ?_)
  have : x ≠ u := fun he => h (he ▸ hx)
  simpa using this

/-- Shape of a toggle endpoint's JSON body: which of the `liked`/`reposted`
state flag and the `like_count`/`repost_count` counter are present, and their
values when they are. -/
structure ToggleResponse where
  ok : Bool
  state : Option Bool
  count : Option Nat
deriving DecidableEq, Repr

/-- `POST /posts/:id/like` (Mongo router): `$addToSet` the caller's id into
`likes`, re-fetch the document, and answer `{ ok, liked: true, like_count }`
with the count read back from storage. -/
def likeAdd (likes : List Nat) (u : Nat) : List Nat × ToggleResponse :=
  let l' := addToSet likes u
  (l', ⟨true, some true, some l'.length⟩)

/-- `DELETE /posts/:id/like` (Mongo router): `$pull` the caller's id out of
`likes`, re-fetch, and answer `{ ok, liked: false, like_count }`. -/
def likeRemove (likes : List Nat) (u : Nat) : List Nat × ToggleResponse :=
  let l' := pull likes u
  (l', ⟨true, some false, some l'.length⟩)

/-- `POST /posts/:id/like/toggle` (Mongo router): test membership with
`Tweet.exists`, `$pull` when present / `$addToSet` when absent, re-fetch, and
answer `{ ok, liked: !already, like_count }`. -/
def likeToggle (likes : List Nat) (u : Nat) : List Nat × ToggleResponse :=
  let already := likes.contains u
  let l' := if already then pull likes u else addToSet likes u
  (l', ⟨true, some (!already), some l'.length⟩)

/-- `POST /posts/:id/repost` (Mongo router): membership test over the
`(username, createdAt)` repost entries, filter-out when present / append when
absent, save, and answer `{ ok, repost_count }` — no state flag. -/
def repostToggle (retweets : List (Nat × Nat)) (u now : Nat) :
    List (Nat × Nat) × ToggleResponse :=
  let has := retweets.any (fun rt => rt.1 == u)
  let r' := if has then retweets.filter (fun rt => rt.1 != u)
            else retweets ++ [(u, now)]
  (r', ⟨true, none, some r'.length⟩)

/-- `DELETE /posts/:id/repost` (Mongo router): filter the caller's entries out
of `retweets`, save, and answer `{ ok, repost_count }` — no state flag. -/
def repostRemove (retweets : List (Nat × Nat)) (u : Nat) :
    List (Nat × Nat) × ToggleResponse :=
  let r' := retweets.filter (fun rt => rt.1 != u)
  (r', ⟨true, none, some r'.length⟩)

/-- `POST /posts/:id/like` (Prisma router): `postLike.create` inside a
swallowed `try`, so a duplicate `(postId, userId)` pair is a no-op; the
response is bare `{ ok: true }` — neither state nor count. -/
def prismaLikeAdd (likes : List (Nat × Nat)) (postId u : Nat) :
    List (Nat × Nat) × ToggleResponse :=
  (if (postId, u) ∈ likes then likes else likes ++ [(postId, u)],
   ⟨true, none, none⟩)

/-- `DELETE /posts/:id/like` (Prisma router): `postLike.deleteMany` on the
`(postId, userId)` pair; the response is bare `{ ok: true }`. -/
def prismaLikeRemove (likes : List (Nat × Nat)) (postId u : Nat) :
    List (Nat × Nat) × ToggleResponse :=
  (likes.filter (fun e => e != (postId, u)), ⟨true, none, none⟩)

/-- `POST /posts/:id/repost` (Prisma router): `repost.create` inside a
swallowed `try`, so a duplicate `(postId, userId)` pair is a no-op; the
response is bare `{ ok: true }` — neither state nor count. -/
def prismaRepostAdd (reposts : List (Nat × Nat)) (postId u : Nat) :
    List (Nat × Nat) × ToggleResponse :=
  (if (postId, u) ∈ reposts then reposts else reposts ++ [(postId, u)],
   ⟨true, none, none⟩)

/-- `DELETE /posts/:id/repost` (Prisma router): `repost.deleteMany` on the
`(postId, userId)` pair; the response is bare `{ ok: true }`. -/
def prismaRepostRemove (reposts : List (Nat × Nat)) (postId u : Nat) :
    List (Nat × Nat) × ToggleResponse :=
  (reposts.filter (fun e => e != (postId, u)), ⟨true, none, none⟩)

/-- The `User` document restricted to what the follow routes touch. -/
structure UserDoc where
  uid : Nat
  following : List Nat
  followers : List Nat
deriving DecidableEq, Repr

/-- Outcome of a follow / unfollow request: the error code sent with a 4xx
response (if any) and the post-request state of the two user documents. -/
structure FollowResult where
  error : Option String
  me : UserDoc
  target : UserDoc
deriving DecidableEq, Repr

/-- `POST /users/:username/follow`: reject `cannot_follow_self` before any
mutation when the resolved target is the requester, otherwise `$addToSet` the
target into the requester's `following` and the requester into the target's
`followers`. -/
def followUser (me target : UserDoc) : FollowResult :=
  if target.uid = me.uid then ⟨some "cannot_follow_self", me, target⟩
  else ⟨none,
    { me with following := addToSet me.following target.uid },
    { target with followers := addToSet target.followers me.uid }⟩

/-- `DELETE /users/:username/follow`: reject `cannot_unfollow_self` before any
mutation when the resolved target is the requester, otherwise `$pull` both
sides of the relation. -/
def unfollowUser (me target : UserDoc) : FollowResult :=
  if target.uid = me.uid then ⟨some "cannot_unfollow_self", me, target⟩
  else ⟨none,
    { me with following := pull me.following target.uid },
    { target with followers := pull target.followers me.uid }⟩

/-! ### Ordering Engine, decoded level

`matchesCursor`, `page` and `walkFeed` embed `GET /posts/feed/global` after the
cursor string has been split and parsed: the decoded cursor is the
`(timestamp, id)` pair of the last item of the previous page, exactly what the
route writes into `nextCursor` and `buildCursorQuery` reads back out. -/

/-- The Mongo filter produced by `buildCursorQuery` for a decoded cursor:
`{ $or: [ { createdAt: { $lt: ts } }, { createdAt: ts, _id: { $lt: id } } ] }`;
no cursor means no filter (match everything). -/
def matchesCursor : Option (Nat × Nat) → PostRec → Bool
  | none, _ => true
  | some (ts, cid), r =>
    decide (r.createdAt < ts) || (decide (r.createdAt = ts) && decide (r.id < cid))

/-- One page of `GET /posts/feed/global`: filter by the cursor predicate, sort
`{ createdAt: -1, _id: -1 }`, limit to `take`; `nextCursor` is built from the
last item of the page exactly when the page is full, otherwise it is null. -/
def page (coll : List PostRec) (c : Option (Nat × Nat)) (take_ : Nat) :
    List PostRec × Option (Nat × Nat) :=
  let items := (sortDesc (coll.filter (matchesCursor c))).take take_
  (items,
   if items.length = take_ then items.getLast?.map (fun r => (r.createdAt, r.id))
   else none)

/-- A client walking the feed: request a page, and while the response carries a
`nextCursor`, pass it back verbatim and append the next page. `fuel` bounds the
number of requests (each full page returns at least one record, so
`coll.length + 1` requests always reach the end). -/
def walkFeed (coll : List PostRec) (take_ : Nat) : Nat → Option (Nat × Nat) → List PostRec
  | 0, _ => []
  | fuel + 1, c =>
    match (page coll c take_).2 with
    | none => (page coll c take_).1
    | some k => (page coll c take_).1 ++ walkFeed coll take_ fuel (some k)

/-! ### Cursor Codec and Ordering Engine, wire level

`buildCursorQuery` embeds the helper of the same name from the posts router
(and its duplicate in the users router) on raw cursor strings, modelled as
`List Char`. Timestamps and ids travel in decimal (`Nat.toDigits`); JavaScript
`new Date(ts)` on such a string is modelled by `parseNatChars`, which yields
`none` for anything that is not a rendered number (Invalid Date). A filter
built from a segment that failed to parse does not run: Mongoose's schema
cast rejects it and the request errors instead of restarting. -/

/-- JavaScript `String.prototype.split` with a single-character separator. -/
def splitOnChar (sep : Char) : List Char → List (List Char)
  | [] => [[]]
  | c :: rest =>
    if c = sep then [] :: splitOnChar sep rest
    else
      match splitOnChar sep rest with
      | [] => [[c]]
      | l :: ls => (c :: l) :: ls

/-- Decimal parse of the wire rendering of a timestamp or id; `none` models an
unparseable segment (JavaScript Invalid Date / an uncastable ObjectId). -/
def parseNatChars (l : List Char) : Option Nat :=
  if l.isEmpty then none
  else l.foldl (fun acc c =>
    acc.bind fun n =>
      if '0' ≤ c ∧ c ≤ '9' then some (n * 10 + (c.toNat - '0'.toNat)) else none)
    (some 0)

/-- The parsed pieces of a cursor that passed `buildCursorQuery`'s emptiness
test; `none` in a field records a segment that did not parse. -/
structure CursorFilter where
  ts : Option Nat
  lastId : Option Nat
deriving DecidableEq, Repr

/-- `buildCursorQuery` from the posts router: no cursor, or a cursor whose
first or second `|`-segment is missing or empty, yields no filter (first page);
any other cursor yields a filter built from the two segments, with no
validation of the timestamp. -/
def buildCursorQuery : Option (List Char) → Option CursorFilter
  | none => none
  | some c =>
    if ((splitOnChar '|' c).getD 0 []).isEmpty || ((splitOnChar '|' c).getD 1 []).isEmpty
    then none
    else some ⟨parseNatChars ((splitOnChar '|' c).getD 0 []),
               parseNatChars ((splitOnChar '|' c).getD 1 [])⟩

deriving instance DecidableEq for Except

/-- Whether a record satisfies a fully-cast cursor filter `(ts, id)`:
`createdAt < ts ∨ (createdAt = ts ∧ _id < id)`. -/
def castFilterMatches (t i : Nat) (r : PostRec) : Bool :=
  decide (r.createdAt < t) || (decide (r.createdAt = t) && decide (r.id < i))

/-- `Tweet.find(query)` with a cursor filter: Mongoose casts the filter
against the schema's Date / ObjectId paths before running it, and a filter
whose timestamp segment is an Invalid Date or whose id segment is not
castable raises a `CastError`, failing the request (the feed route has no
try/catch; the users-router variant answers 500 `server_error`). With no
filter, or a filter whose two segments cast, the matching records come
back. -/
def runFind (coll : List PostRec) : Option CursorFilter → Except String (List PostRec)
  | none => .ok coll
  | some f =>
    match f.ts with
    | none => .error "CastError"
    | some t =>
      match f.lastId with
      | none => .error "CastError"
      | some i => .ok (coll.filter (castFilterMatches t i))

/-- Decimal wire rendering of a `nextCursor`: timestamp, `|`, id. -/
def encodeCursor (r : PostRec) : List Char :=
  Nat.toDigits 10 r.createdAt ++ '|' :: Nat.toDigits 10 r.id

/-- One page of `GET /posts/feed/global` at the wire level: the raw cursor
string goes through `buildCursorQuery`, the find either fails with a cast
error or returns the matching records, and `nextCursor` is rendered back to a
string from the last item of a full page. -/
def pageS (coll : List PostRec) (cursor : Option (List Char)) (take_ : Nat) :
    Except String (List PostRec × Option (List Char)) :=
  match runFind coll (buildCursorQuery cursor) with
  | .error e => .error e
  | .ok matched =>
    let items := (sortDesc matched).take take_
    .ok (items,
      if items.length = take_ then items.getLast?.map encodeCursor else none)

/-! ### Comment listing (`GET /comments/:postId`) -/

/-- A comment of the embedded `comments` array of a post; only `createdAt`
drives the listing order, `body` stands for the payload. -/
structure CommentRec where
  createdAt : Nat
  body : Nat
deriving DecidableEq, Repr

/-- Non-strict newest-first comparison used by
`all.sort((a, b) => new Date(b.createdAt) - new Date(a.createdAt))`. -/
def cOrd (a b : CommentRec) : Prop := b.createdAt ≤ a.createdAt

instance : DecidableRel cOrd := fun a b => by
  unfold cOrd; infer_instance

instance : IsTotal CommentRec cOrd :=
  ⟨fun a b => Nat.le_total b.createdAt a.createdAt⟩

instance : IsTrans CommentRec cOrd :=
  ⟨fun _ _ _ h1 h2 => Nat.le_trans h2 h1⟩

/-- The in-memory newest-first sort of the full comment array. -/
def sortComments (l : List CommentRec) : List CommentRec := l.insertionSort cOrd

/-- One page of the comment listing: sort all comments newest-first, slice
`[cursor, cursor + limit)`, and set `nextCursor` to `cursor + slice.length`
exactly when that offset is still strictly below the total count. -/
def listComments (comments : List CommentRec) (limit cursor : Nat) :
    List CommentRec × Option Nat :=
  let all := sortComments comments
  let slice := (all.drop cursor).take limit
  (slice,
   if cursor + slice.length < all.length then some (cursor + slice.length) else none)

/-- The route clamps the requested limit into `[1, 100]` (default 20). -/
def clampLimit (n : Nat) : Nat := min (max n 1) 100

/-- A client walking the comment listing: start at offset 0 and follow
`nextCursor` offsets until it comes back null. -/
def walkComments (comments : List CommentRec) (limit : Nat) :
    Nat → Nat → List CommentRec
  | 0, _ => []
  | fuel + 1, cursor =>
    match (listComments comments limit cursor).2 with
    | none => (listComments comments limit cursor).1
    | some c2 => (listComments comments limit cursor).1 ++ walkComments comments limit fuel c2

/-! ### Text Normalizer (`sanitizeTweetText` in `server/src/utils/text.ts`)

JavaScript strings are `List Char`. Each regex of the source becomes a
structural recursion:

* `.replace(/[\x00-\x09\x0B-\x1F\x7F]/g, '')`   → `stripCtl`
* `.replace(/\r\n?/g, '\n')`                     → `normalizeCR`
* per line `.replace(/\s+/g, ' ')`               → `collapseWs`
* `.trim()` (ECMAScript WhiteSpace ∪ LineTerminator, the same set as `\s`)
                                                 → `trimWs`
* `.split('\n')` / `.join('\n')`                 → `splitOnNl` / `joinNl`
-/

/-- The control characters removed by the first replace:
`\x00-\x09`, `\x0B-\x1F` and `\x7F` (note `\n` = `\x0A` survives). -/
def isStrippedCtl (c : Char) : Bool :=
  c.toNat ≤ 0x09 || (0x0B ≤ c.toNat && c.toNat ≤ 0x1F) || c.toNat == 0x7F

/-- The JavaScript regex `\s` class (ECMAScript WhiteSpace ∪ LineTerminator). -/
def isJsWs (c : Char) : Bool :=
  c == ' ' || c == '\t' || c == '\n' || c.toNat == 0x0B || c.toNat == 0x0C ||
  c == '\r' || c.toNat == 0xA0 || c.toNat == 0x1680 ||
  (0x2000 ≤ c.toNat && c.toNat ≤ 0x200A) ||
  c.toNat == 0x2028 || c.toNat == 0x2029 || c.toNat == 0x202F ||
  c.toNat == 0x205F || c.toNat == 0x3000 || c.toNat == 0xFEFF

/-- `raw.replace(/[\x00-\x09\x0B-\x1F\x7F]/g, '')`. -/
def stripCtl (l : List Char) : List Char := l.filter (fun c => !isStrippedCtl c)

/-- `t.replace(/\r\n?/g, '\n')`. (After `stripCtl` no `\r` remains, so this
pass is the identity on the strings it actually receives.) -/
def normalizeCR : List Char → List Char
  | [] => []
  | '\r' :: '\n' :: rest => '\n' :: normalizeCR rest
  | '\r' :: rest => '\n' :: normalizeCR rest
  | c :: rest => c :: normalizeCR rest

/-- `l.replace(/\s+/g, ' ')` on one line: each maximal run of `\s` characters
becomes a single space; the flag records whether the previous character was
part of a run already replaced. -/
def collapseWsAux : Bool → List Char → List Char
  | _, [] => []
  | prevWs, c :: rest =>
    if isJsWs c then
      if prevWs then collapseWsAux true rest
      else ' ' :: collapseWsAux true rest
    else c :: collapseWsAux false rest

/-- `l.replace(/\s+/g, ' ')`. -/
def collapseWs (l : List Char) : List Char := collapseWsAux false l

/-- `String.prototype.trim`: drop leading and trailing whitespace. -/
def trimWs (l : List Char) : List Char :=
  ((l.dropWhile isJsWs).reverse.dropWhile isJsWs).reverse

/-- `t.split('\n')`. -/
def splitOnNl : List Char → List (List Char) := splitOnChar '\n'

/-- `lines.join('\n')`. -/
def joinNl : List (List Char) → List Char
  | [] => []
  | [l] => l
  | l :: ls => l ++ '\n' :: joinNl ls

/-- `sanitizeTweetText`: strip control characters, normalize line endings,
collapse and trim whitespace per line, trim overall. (The source returns `''`
for non-string input before this pipeline; that guard is outside the claims.) -/
def sanitizeTweetText (raw : List Char) : List Char :=
  let t1 := stripCtl raw
  let t2 := normalizeCR t1
  let t3 := joinNl ((splitOnNl t2).map (fun l => trimWs (collapseWs l)))
  trimWs t3

/-- The visible characters of an input: those that survive control
stripping. -/
def visibleCount (l : List Char) : Nat := (stripCtl l).length

/-! ### Post and comment creation (`POST /posts`, `POST /comments/:postId`) -/

/-- Maximum characters allowed for a post or comment. -/
def MAX_TWEET_LEN : Nat := 280

/-- Outcome of a creation request. -/
inductive CreateResult where
  | badRequest (code : String)
  | notFound
  | created (text : List Char)
deriving DecidableEq

/-- `POST /posts`: zod validates `min(1).max(280)` on the raw text (rejecting
before `sanitizeTweetText` runs), then a sanitization result of empty string is
rejected as `empty_text`, and only then is the document created. -/
def createPost (text : List Char) : CreateResult :=
  if text.length < 1 || MAX_TWEET_LEN < text.length then .badRequest "invalid_payload"
  else
    let cleaned := sanitizeTweetText text
    if cleaned.isEmpty then .badRequest "empty_text"
    else .created cleaned

/-- `POST /comments/:postId`: the same zod bound and `empty_text` check run
before the parent post is even looked up, so nothing is appended for invalid
text. -/
def createComment (postExists : Bool) (text : List Char) : CreateResult :=
  if text.length < 1 || MAX_TWEET_LEN < text.length then .badRequest "invalid_payload"
  else
    let clean := sanitizeTweetText text
    if clean.isEmpty then .badRequest "empty_text"
    else if postExists then .created clean
    else .notFound

/-! ## Claim theorems -/

/-- C3: for every actor `u` and target post (its `likes` array), performing the
"add membership" like operation twice in sequence leaves the same membership
state and the same like count (the whole response) as performing it once;
adding an already-present actor is a no-op, and removing an absent actor is a
no-op. -/
theorem likeAdd_idempotent (likes : List Nat) (u : Nat) :
    (likeAdd (likeAdd likes u).1 u).1 = (likeAdd likes u).1 ∧
    (likeAdd (likeAdd likes u).1 u).2 = (likeAdd likes u).2 ∧
    (u ∈ likes → addToSet likes u = likes) ∧
    (u ∉ likes → pull likes u = likes) := by
  have hstate : addToSet (addToSet likes u) u = addToSet likes u :=
    addToSet_of_mem (mem_addToSet_self likes u)
  refine ⟨?_, ?_, fun h => addToSet_of_mem h, fun h => pull_of_not_mem h⟩
  · simpa [likeAdd] using hstate
  · simp [likeAdd, hstate]

theorem likeAdd_idempotent_witness :
    (7 ∈ [3, 7] ∧ addToSet [3, 7] 7 = [3, 7]) ∧
    (7 ∉ [3, 5] ∧ pull [3, 5] 7 = [3, 5]) ∧
    (likeAdd (likeAdd [3, 5] 7).1 7).1 = (likeAdd [3, 5] 7).1 :=
  ⟨⟨by decide, (likeAdd_idempotent [3, 7] 7).2.2.1 (by decide)⟩,
   ⟨by decide, (likeAdd_idempotent [3, 5] 7).2.2.2 (by decide)⟩,
   (likeAdd_idempotent [3, 5] 7).1⟩

/-- C4: a page returns a non-null `nextCursor` iff the number of records
returned equals the requested page size; that cursor is the `(timestamp, id)`
of the last item of the page, and a short page returns no cursor. -/
theorem page_nextCursor (coll : List PostRec) (c : Option (Nat × Nat))
    (take_ : Nat) (ht : 0 < take_) :
    ((page coll c take_).2.isSome ↔ (page coll c take_).1.length = take_) ∧
    ((page coll c take_).1.length = take_ →
      (page coll c take_).2 =
        (page coll c take_).1.getLast?.map (fun r => (r.createdAt, r.id))) ∧
    ((page coll c take_).1.length ≠ take_ → (page coll c take_).2 = none) := by
  set items := (sortDesc (coll.filter (matchesCursor c))).take take_ with hitems
  have hpage : page coll c take_ =
      (items,
       if items.length = take_ then items.getLast?.map (fun r => (r.createdAt, r.id))
       else none) := rfl
  rw [hpage]
  by_cases h : items.length = take_
  · have hne : items ≠ [] := by
      intro hnil
      rw [hnil] at h
      simp at h
      omega
    have hx := List.getLast?_eq_getLast items hne
    simp [h, hx]
  · simp [h]

theorem page_nextCursor_witness :
    0 < 2 ∧
    (((page [⟨5, 1⟩] none 2).2.isSome ↔ (page [⟨5, 1⟩] none 2).1.length = 2) ∧
     ((page [⟨5, 1⟩] none 2).1.length = 2 →
       (page [⟨5, 1⟩] none 2).2 =
         (page [⟨5, 1⟩] none 2).1.getLast?.map (fun r => (r.createdAt, r.id))) ∧
     ((page [⟨5, 1⟩] none 2).1.length ≠ 2 → (page [⟨5, 1⟩] none 2).2 = none)) :=
  ⟨by decide, page_nextCursor [⟨5, 1⟩] none 2 (by decide)⟩

/-- C5: after a successful follow from `a` to `b`, `b`'s followers-set contains
`a` and `a`'s following-set contains `b`; after a successful unfollow, neither
set contains the other — the operation keeps the dual sets symmetric. -/
theorem follow_symmetric (a b : UserDoc) (h : b.uid ≠ a.uid) :
    (followUser a b).error = none ∧
    a.uid ∈ (followUser a b).target.followers ∧
    b.uid ∈ (followUser a b).me.following ∧
    (unfollowUser a b).error = none ∧
    a.uid ∉ (unfollowUser a b).target.followers ∧
    b.uid ∉ (unfollowUser a b).me.following := by
  refine ⟨?_, ?_, ?_, ?_, ?_, ?_⟩ <;>
    simp [followUser, unfollowUser, h, mem_addToSet_self, not_mem_pull]

theorem follow_symmetric_witness :
    ((2 : Nat) ≠ 1) ∧
    ((followUser ⟨1, [], []⟩ ⟨2, [], []⟩).error = none ∧
     (1 : Nat) ∈ (followUser ⟨1, [], []⟩ ⟨2, [], []⟩).target.followers ∧
     (2 : Nat) ∈ (followUser ⟨1, [], []⟩ ⟨2, [], []⟩).me.following ∧
     (unfollowUser ⟨1, [], []⟩ ⟨2, [], []⟩).error = none ∧
     (1 : Nat) ∉ (unfollowUser ⟨1, [], []⟩ ⟨2, [], []⟩).target.followers ∧
     (2 : Nat) ∉ (unfollowUser ⟨1, [], []⟩ ⟨2, [], []⟩).me.following) :=
  ⟨by decide, follow_symmetric ⟨1, [], []⟩ ⟨2, [], []⟩ (by decide)⟩

/-- C6: a follow or unfollow request whose resolved target is the requester is
rejected with `cannot_follow_self` / `cannot_unfollow_self` before any
mutation: both user documents are returned unchanged. -/
theorem follow_self_rejected (a b : UserDoc) (h : b.uid = a.uid) :
    followUser a b = ⟨some "cannot_follow_self", a, b⟩ ∧
    unfollowUser a b = ⟨some "cannot_unfollow_self", a, b⟩ := by
  constructor <;> simp [followUser, unfollowUser, h]

theorem follow_self_rejected_witness :
    ((1 : Nat) = 1) ∧
    followUser ⟨1, [2], [3]⟩ ⟨1, [2], [3]⟩ = ⟨some "cannot_follow_self", ⟨1, [2], [3]⟩, ⟨1, [2], [3]⟩⟩ ∧
    unfollowUser ⟨1, [2], [3]⟩ ⟨1, [2], [3]⟩ = ⟨some "cannot_unfollow_self", ⟨1, [2], [3]⟩, ⟨1, [2], [3]⟩⟩ :=
  ⟨rfl, (follow_self_rejected ⟨1, [2], [3]⟩ ⟨1, [2], [3]⟩ rfl).1,
        (follow_self_rejected ⟨1, [2], [3]⟩ ⟨1, [2], [3]⟩ rfl).2⟩

/-- C9 counterexample: the claim "every toggle endpoint response includes the
resulting membership state and the resulting count" is false — the Prisma like
endpoint answers bare `{ ok: true }` with neither field, and the Mongo repost
endpoint answers a count but no state flag. -/
theorem toggle_response_counterexample :
    (prismaLikeAdd [] 1 2).2.state = none ∧
    (prismaLikeAdd [] 1 2).2.count = none ∧
    (repostToggle [] 7 5).2.state = none := by
  refine ⟨rfl, rfl, rfl⟩

/-- C9 amended: the Mongo like endpoints (add, remove, toggle) include the
resulting state and a count equal to the size of the membership set after the
mutation (read back from storage); the Mongo repost endpoints include such a
count but no state flag; the Prisma like and repost endpoints (create and
delete alike) include neither state nor count. -/
theorem toggle_response_fields (likes : List Nat) (rts pl pr : List (Nat × Nat))
    (u now postId : Nat) :
    (likeAdd likes u).2.state = some true ∧
    (likeAdd likes u).2.count = some (likeAdd likes u).1.length ∧
    (likeRemove likes u).2.state = some false ∧
    (likeRemove likes u).2.count = some (likeRemove likes u).1.length ∧
    (likeToggle likes u).2.state = some (!(likes.contains u)) ∧
    (likeToggle likes u).2.count = some (likeToggle likes u).1.length ∧
    (repostToggle rts u now).2.state = none ∧
    (repostToggle rts u now).2.count = some (repostToggle rts u now).1.length ∧
    (repostRemove rts u).2.state = none ∧
    (repostRemove rts u).2.count = some (repostRemove rts u).1.length ∧
    (prismaLikeAdd pl postId u).2.state = none ∧
    (prismaLikeAdd pl postId u).2.count = none ∧
    (prismaLikeRemove pl postId u).2.state = none ∧
    (prismaLikeRemove pl postId u).2.count = none ∧
    (prismaRepostAdd pr postId u).2.state = none ∧
    (prismaRepostAdd pr postId u).2.count = none ∧
    (prismaRepostRemove pr postId u).2.state = none ∧
    (prismaRepostRemove pr postId u).2.count = none := by
  refine ⟨rfl, rfl, rfl, rfl, rfl, rfl, rfl, rfl, rfl, rfl, rfl, rfl, rfl, rfl,
    rfl, rfl, rfl, rfl⟩

/-- C2 counterexample: a cursor whose timestamp segment does not parse as a
date ("x|5") does not decode to "no cursor" — `buildCursorQuery` only tests the
two segments for emptiness — and the listing neither stays silent nor restarts
from the first page: casting the unvalidated filter fails, so the request
errors while the no-cursor request returns the first page. -/
theorem cursor_decode_counterexample :
    buildCursorQuery (some ['x', '|', '5']) ≠ none ∧
    pageS [⟨100, 1⟩] (some ['x', '|', '5']) 20 = .error "CastError" ∧
    pageS [⟨100, 1⟩] (some ['x', '|', '5']) 20 ≠ pageS [⟨100, 1⟩] none 20 := by
  refine ⟨by decide, by decide, by decide⟩

/-- C2 amended: for every cursor string with a missing part — no `|`, an empty
timestamp segment, or an empty id segment — decoding yields no filter without
throwing, and the paginated listing silently restarts from the beginning.
Timestamp parseability is not checked at decode time: every cursor with two
non-empty segments produces a filter built from the raw segments, and when its
timestamp segment fails to cast as a date, running the query raises a cast
error and the request fails instead of restarting. -/
theorem cursor_missing_part_restarts (s : List Char) (coll : List PostRec)
    (take_ : Nat)
    (h : ((splitOnChar '|' s).getD 0 []).isEmpty ∨ ((splitOnChar '|' s).getD 1 []).isEmpty) :
    (buildCursorQuery (some s) = none ∧
     pageS coll (some s) take_ = pageS coll none take_) ∧
    (∀ t : List Char, ((splitOnChar '|' t).getD 0 []).isEmpty = false →
      ((splitOnChar '|' t).getD 1 []).isEmpty = false →
      buildCursorQuery (some t) =
        some ⟨parseNatChars ((splitOnChar '|' t).getD 0 []),
              parseNatChars ((splitOnChar '|' t).getD 1 [])⟩) ∧
    (∀ t : List Char, ((splitOnChar '|' t).getD 0 []).isEmpty = false →
      ((splitOnChar '|' t).getD 1 []).isEmpty = false →
      parseNatChars ((splitOnChar '|' t).getD 0 []) = none →
      pageS coll (some t) take_ = .error "CastError") := by
  have hcond : (((splitOnChar '|' s).getD 0 []).isEmpty ||
      ((splitOnChar '|' s).getD 1 []).isEmpty) = true :=
    by rcases h with h | h
       · rw [h]
         rfl
       · rw [h, Bool.or_true]
  have hq : buildCursorQuery (some s) = none := by
    simp only [buildCursorQuery, hcond, if_true]
  have hfull : ∀ t : List Char, ((splitOnChar '|' t).getD 0 []).isEmpty = false →
      ((splitOnChar '|' t).getD 1 []).isEmpty = false →
      buildCursorQuery (some t) =
        some ⟨parseNatChars ((splitOnChar '|' t).getD 0 []),
              parseNatChars ((splitOnChar '|' t).getD 1 [])⟩ := by
    intro t h1 h2
    have hc : (((splitOnChar '|' t).getD 0 []).isEmpty ||
        ((splitOnChar '|' t).getD 1 []).isEmpty) = false := by
      rw [h1, h2]
      rfl
    simp only [buildCursorQuery, hc, Bool.false_eq_true, if_false]
  refine ⟨⟨hq, ?_⟩, hfull, ?_⟩
  · unfold pageS
    rw [hq]
    rfl
  · intro t h1 h2 hp
    unfold pageS
    rw [hfull t h1 h2]
    show (match runFind coll (some ⟨parseNatChars ((splitOnChar '|' t).getD 0 []),
        parseNatChars ((splitOnChar '|' t).getD 1 [])⟩) with
      | .error e => (.error e : Except String (List PostRec × Option (List Char)))
      | .ok matched =>
        .ok ((sortDesc matched).take take_,
          if ((sortDesc matched).take take_).length = take_
          then ((sortDesc matched).take take_).getLast?.map encodeCursor else none)) =
      .error "CastError"
    rw [show runFind coll (some ⟨parseNatChars ((splitOnChar '|' t).getD 0 []),
        parseNatChars ((splitOnChar '|' t).getD 1 [])⟩) =
        match parseNatChars ((splitOnChar '|' t).getD 0 []) with
        | none => .error "CastError"
        | some tv =>
          match parseNatChars ((splitOnChar '|' t).getD 1 []) with
          | none => .error "CastError"
          | some iv => .ok (coll.filter (castFilterMatches tv iv)) from rfl]
    rw [hp]

theorem cursor_missing_part_restarts_witness :
    (((splitOnChar '|' ['|', 'a']).getD 0 []).isEmpty ∨
     ((splitOnChar '|' ['|', 'a']).getD 1 []).isEmpty) ∧
    buildCursorQuery (some ['|', 'a']) = none ∧
    pageS [⟨3, 4⟩] (some ['|', 'a']) 20 = pageS [⟨3, 4⟩] none 20 :=
  ⟨by decide,
   (cursor_missing_part_restarts ['|', 'a'] [⟨3, 4⟩] 20 (by decide)).1.1,
   (cursor_missing_part_restarts ['|', 'a'] [⟨3, 4⟩] 20 (by decide)).1.2⟩

/-- C8: the 280-character maximum is enforced on the pre-normalized input —
an over-length request is rejected with a validation error whatever its
normalized form would be — and an in-range input whose normalization is empty
is rejected as `empty_text`; a record is only ever created with non-empty
normalized text. This holds for post creation and comment creation alike. -/
theorem create_validation (text : List Char) (pe : Bool) :
    (MAX_TWEET_LEN < text.length →
      createPost text = .badRequest "invalid_payload" ∧
      createComment pe text = .badRequest "invalid_payload") ∧
    (1 ≤ text.length → text.length ≤ MAX_TWEET_LEN → sanitizeTweetText text = [] →
      createPost text = .badRequest "empty_text" ∧
      createComment pe text = .badRequest "empty_text") ∧
    (∀ t, createPost text = .created t → t = sanitizeTweetText text ∧ t ≠ []) ∧
    (∀ t, createComment pe text = .created t → t = sanitizeTweetText text ∧ t ≠ []) := by
  refine ⟨fun hlong => ?_, fun h1 h2 hempty => ?_, fun t ht => ?_, fun t ht => ?_⟩
  · have hc : (decide (text.length < 1) || decide (MAX_TWEET_LEN < text.length)) = true := by
      rw [decide_eq_true hlong, Bool.or_true]
    constructor
    · unfold createPost
      rw [if_pos hc]
    · unfold createComment
      rw [if_pos hc]
  · have hc : (decide (text.length < 1) || decide (MAX_TWEET_LEN < text.length)) = false := by
      rw [decide_eq_false (by omega), decide_eq_false (by omega)]
      rfl
    have he : (sanitizeTweetText text).isEmpty = true := by
      rw [hempty]
      rfl
    constructor
    · unfold createPost
      simp only [hc, Bool.false_eq_true, if_false, he, if_true]
    · unfold createComment
      simp only [hc, Bool.false_eq_true, if_false, he, if_true]
  · unfold createPost at ht
    by_cases hc : (decide (text.length < 1) || decide (MAX_TWEET_LEN < text.length)) = true
    · rw [if_pos hc] at ht
      exact absurd ht (by simp)
    · rw [if_neg hc] at ht
      by_cases he : (sanitizeTweetText text).isEmpty = true
      · rw [if_pos he] at ht
        exact absurd ht (by simp)
      · rw [if_neg he] at ht
        cases ht
        exact ⟨rfl, by simpa [List.isEmpty_iff] using he⟩
  · unfold createComment at ht
    by_cases hc : (decide (text.length < 1) || decide (MAX_TWEET_LEN < text.length)) = true
    · rw [if_pos hc] at ht
      exact absurd ht (by simp)
    · rw [if_neg hc] at ht
      by_cases he : (sanitizeTweetText text).isEmpty = true
      · rw [if_pos he] at ht
        exact absurd ht (by simp)
      · rw [if_neg he] at ht
        by_cases hp : pe = true
        · rw [if_pos hp] at ht
          cases ht
          exact ⟨rfl, by simpa [List.isEmpty_iff] using he⟩
        · rw [if_neg hp] at ht
          exact absurd ht (by simp)

theorem create_validation_witness :
    (MAX_TWEET_LEN < (List.replicate 281 'a').length ∧
     createPost (List.replicate 281 'a') = .badRequest "invalid_payload") ∧
    (1 ≤ ([' '] : List Char).length ∧ ([' '] : List Char).length ≤ MAX_TWEET_LEN ∧
     sanitizeTweetText [' '] = [] ∧
     createPost [' '] = .badRequest "empty_text" ∧
     createComment true [' '] = .badRequest "empty_text") := by
  have hlong : MAX_TWEET_LEN < (List.replicate 281 'a').length := by
    rw [List.length_replicate]
    decide
  have hempty : sanitizeTweetText [' '] = [] := by decide
  exact ⟨⟨hlong, ((create_validation (List.replicate 281 'a') true).1 hlong).1⟩,
    ⟨by decide, by decide, hempty,
     ((create_validation [' '] true).2.1 (by decide) (by decide) hempty).1,
     ((create_validation [' '] true).2.1 (by decide) (by decide) hempty).2⟩⟩

theorem sortComments_perm (l : List CommentRec) : List.Perm (sortComments l) l :=
  List.perm_insertionSort _ _

theorem sortComments_sorted (l : List CommentRec) : (sortComments l).Pairwise cOrd :=
  List.sorted_insertionSort _ _

/-- Walking the comment listing from any offset returns exactly the suffix of
the sorted comment array from that offset. -/
theorem walkComments_eq (comments : List CommentRec) (limit : Nat) (hl : 1 ≤ limit) :
    ∀ fuel cursor, (sortComments comments).length - cursor < fuel →
      walkComments comments limit fuel cursor = (sortComments comments).drop cursor := by
  intro fuel
  induction fuel with
  | zero => intro cursor h; omega
  | succ fuel ih =>
    intro cursor hfuel
    have hunf : walkComments comments limit (fuel + 1) cursor =
        match (listComments comments limit cursor).2 with
        | none => (listComments comments limit cursor).1
        | some c2 => (listComments comments limit cursor).1 ++
            walkComments comments limit fuel c2 := rfl
    have hfst : (listComments comments limit cursor).1 =
        ((sortComments comments).drop cursor).take limit := rfl
    have hslice : (((sortComments comments).drop cursor).take limit).length =
        min limit ((sortComments comments).length - cursor) := by
      rw [List.length_take, List.length_drop]
    by_cases hnext : cursor + (((sortComments comments).drop cursor).take limit).length <
        (sortComments comments).length
    · have hsnd : (listComments comments limit cursor).2 =
          some (cursor + (((sortComments comments).drop cursor).take limit).length) :=
        if_pos hnext
      have hlen : (((sortComments comments).drop cursor).take limit).length = limit := by
        rw [hslice] at hnext ⊢
        omega
      have hihlen : (sortComments comments).length - (cursor + limit) < fuel := by
        rw [hslice] at hnext
        omega
      rw [hunf, hsnd, hfst, hlen]
      show ((sortComments comments).drop cursor).take limit ++
          walkComments comments limit fuel (cursor + limit) =
          (sortComments comments).drop cursor
      rw [ih (cursor + limit) hihlen]
      rw [show (sortComments comments).drop (cursor + limit) =
            (((sortComments comments)).drop cursor).drop limit by rw [List.drop_drop]]
      exact List.take_append_drop _ _
    · have hsnd : (listComments comments limit cursor).2 = none := if_neg hnext
      rw [hunf, hsnd, hfst]
      show ((sortComments comments).drop cursor).take limit =
          (sortComments comments).drop cursor
      have hle : ((sortComments comments).drop cursor).length ≤ limit := by
        rw [List.length_drop]
        rw [hslice] at hnext
        omega
      rw [List.take_of_length_le hle]

/-- C10: the comment listing's end-of-stream detection is exact, not a
full-page heuristic — `nextCursor` is `cursor + items.length` exactly when that
sum is strictly below the total comment count and null otherwise — and walking
offsets from 0 yields every comment exactly once, sorted newest-first, with no
trailing empty-page fetch. -/
theorem comment_walk (comments : List CommentRec) (limit : Nat) (hl : 1 ≤ limit) :
    (∀ cursor,
      (listComments comments limit cursor).2 =
        (if cursor + (listComments comments limit cursor).1.length < comments.length
         then some (cursor + (listComments comments limit cursor).1.length)
         else none)) ∧
    List.Perm (walkComments comments limit (comments.length + 1) 0) comments ∧
    (walkComments comments limit (comments.length + 1) 0).Pairwise cOrd := by
  have hlen : (sortComments comments).length = comments.length :=
    (sortComments_perm comments).length_eq
  refine ⟨fun cursor => ?_, ?_, ?_⟩
  · rw [← hlen]
    rfl
  · have hw := walkComments_eq comments limit hl (comments.length + 1) 0 (by omega)
    rw [hw, List.drop_zero]
    exact sortComments_perm comments
  · have hw := walkComments_eq comments limit hl (comments.length + 1) 0 (by omega)
    rw [hw, List.drop_zero]
    exact sortComments_sorted comments

theorem comment_walk_witness :
    1 ≤ 2 ∧
    ((listComments [⟨5, 0⟩, ⟨9, 1⟩, ⟨7, 2⟩] 2 0).2 =
      (if 0 + (listComments [⟨5, 0⟩, ⟨9, 1⟩, ⟨7, 2⟩] 2 0).1.length < 3
       then some (0 + (listComments [⟨5, 0⟩, ⟨9, 1⟩, ⟨7, 2⟩] 2 0).1.length)
       else none)) ∧
    List.Perm (walkComments [⟨5, 0⟩, ⟨9, 1⟩, ⟨7, 2⟩] 2 4 0) [⟨5, 0⟩, ⟨9, 1⟩, ⟨7, 2⟩] ∧
    (walkComments [⟨5, 0⟩, ⟨9, 1⟩, ⟨7, 2⟩] 2 4 0).Pairwise cOrd :=
  ⟨by decide,
   (comment_walk [⟨5, 0⟩, ⟨9, 1⟩, ⟨7, 2⟩] 2 (by decide)).1 0,
   (comment_walk [⟨5, 0⟩, ⟨9, 1⟩, ⟨7, 2⟩] 2 (by decide)).2.1,
   (comment_walk [⟨5, 0⟩, ⟨9, 1⟩, ⟨7, 2⟩] 2 (by decide)).2.2⟩

theorem matchesCursor_eq_keyLt (p r : PostRec) :
    matchesCursor (some (p.createdAt, p.id)) r = decide (keyLt r p) := by
  unfold matchesCursor keyLt
  simp

/-- The set of records matching a cursor is downward closed in the
`(createdAt, id)` order: anything older than a matching record matches. -/
theorem matchesCursor_downward {c : Option (Nat × Nat)} {p r : PostRec}
    (hp : matchesCursor c p = true) (hlt : keyLt r p) : matchesCursor c r = true := by
  match c with
  | none => rfl
  | some (ts, cid) =>
    have hp' : keyLt p ⟨ts, cid⟩ := by
      have := matchesCursor_eq_keyLt ⟨ts, cid⟩ p
      rw [this] at hp
      exact of_decide_eq_true hp
    have := matchesCursor_eq_keyLt ⟨ts, cid⟩ r
    rw [this]
    exact decide_eq_true (keyLt_trans hlt hp')

/-- Core invariant of the feed walk: starting from any cursor, the walk
returns exactly the records matching that cursor, in the storage sort order,
provided the fuel exceeds the number of matching records. -/
theorem walkFeed_eq (coll : List PostRec) (take_ : Nat) (ht : 0 < take_)
    (hnd : coll.Nodup) :
    ∀ fuel c, (coll.filter (matchesCursor c)).length < fuel →
      walkFeed coll take_ fuel c = sortDesc (coll.filter (matchesCursor c)) := by
  intro fuel
  induction fuel with
  | zero => intro c h; omega
  | succ fuel ih =>
    intro c hfuel
    set F := coll.filter (matchesCursor c) with hF
    set S := sortDesc F with hS
    have hSperm : List.Perm S F := sortDesc_perm F
    have hSlen : S.length = F.length := hSperm.length_eq
    have hFnodup : F.Nodup := hnd.filter _
    have hSsorted : SortedD S := sortDesc_sortedD hFnodup
    have hunf : walkFeed coll take_ (fuel + 1) c =
        match (page coll c take_).2 with
        | none => (page coll c take_).1
        | some k => (page coll c take_).1 ++ walkFeed coll take_ fuel (some k) := rfl
    have hfst : (page coll c take_).1 = S.take take_ := rfl
    by_cases hcase : take_ ≤ S.length
    · -- full page: the walk recurses with the cursor of the last item
      have hitemslen : (S.take take_).length = take_ := by
        rw [List.length_take]
        omega
      have hne : S.take take_ ≠ [] := by
        intro h0
        rw [h0] at hitemslen
        simp at hitemslen
        omega
      set r0 := (S.take take_).getLast hne with hr0
      have hlast : (S.take take_).getLast? = some r0 := List.getLast?_eq_getLast _ hne
      have hsnd : (page coll c take_).2 = some (r0.createdAt, r0.id) := by
        show (if (S.take take_).length = take_
              then (S.take take_).getLast?.map (fun r => (r.createdAt, r.id))
              else none) = some (r0.createdAt, r0.id)
        rw [if_pos hitemslen, hlast]
        rfl
      -- the records matching the new cursor are exactly the part of S after the page
      clear_value F S r0
      have hr0mem : r0 ∈ S := (List.take_sublist take_ S).mem (hr0 ▸ List.getLast_mem hne)
      have hr0c : matchesCursor c r0 = true :=
        List.of_mem_filter (hF ▸ hSperm.mem_iff.mp hr0mem)
      have hgmc : ∀ r : PostRec, matchesCursor (some (r0.createdAt, r0.id)) r = true →
          matchesCursor c r = true := by
        intro r hr
        rw [matchesCursor_eq_keyLt r0 r] at hr
        exact matchesCursor_downward hr0c (of_decide_eq_true hr)
      have hfilter_eq : coll.filter (matchesCursor (some (r0.createdAt, r0.id))) =
          F.filter (matchesCursor (some (r0.createdAt, r0.id))) := by
        rw [hF, List.filter_filter]
        refine List.filter_congr (fun x _ => ?_)
        by_cases hx : matchesCursor (some (r0.createdAt, r0.id)) x = true
        · rw [hx, hgmc x hx]
          rfl
        · rw [Bool.not_eq_true] at hx
          rw [hx, Bool.false_and]
      -- the page is the records of S not past r0; the rest matches the new cursor
      have hSsplit : S.take take_ ++ S.drop take_ = S := List.take_append_drop _ _
      have hpair : ∀ a ∈ S.take take_, ∀ b ∈ S.drop take_, keyLt b a := by
        have := hSsplit ▸ hSsorted
        exact (List.pairwise_append.mp this).2.2
      have hfilter_take :
          (S.take take_).filter (matchesCursor (some (r0.createdAt, r0.id))) = [] := by
        refine List.filter_eq_nil_iff.mpr (fun a ha => ?_)
        rw [matchesCursor_eq_keyLt r0 a, decide_eq_true_eq]
        have hdecomp := List.dropLast_append_getLast hne
        rcases List.mem_append.mp (hdecomp ▸ ha) with hint | hlastm
        · have hsorted_items : SortedD (S.take take_) :=
            hSsorted.sublist (List.take_sublist _ _)
          have := (List.pairwise_append.mp (hdecomp ▸ hsorted_items)).2.2
          have hgt : keyLt r0 a := this a hint r0 (by simp [hr0])
          exact keyLt_asymm hgt
        · have : a = r0 := by simpa [hr0] using hlastm
          rw [this]
          exact keyLt_irrefl r0
      have hfilter_drop :
          (S.drop take_).filter (matchesCursor (some (r0.createdAt, r0.id))) =
            S.drop take_ := by
        refine List.filter_eq_self.mpr (fun b hb => ?_)
        rw [matchesCursor_eq_keyLt r0 b, decide_eq_true_eq]
        exact hpair r0 (hr0 ▸ List.getLast_mem hne) b hb
      have hSfilter : S.filter (matchesCursor (some (r0.createdAt, r0.id))) =
          S.drop take_ := by
        conv_lhs => rw [← hSsplit]
        rw [List.filter_append, hfilter_take, hfilter_drop, List.nil_append]
      have hpermN : List.Perm (coll.filter (matchesCursor (some (r0.createdAt, r0.id))))
          (S.drop take_) := by
        rw [hfilter_eq, ← hSfilter]
        exact (hSperm.filter _).symm
      have hsortN : sortDesc (coll.filter (matchesCursor (some (r0.createdAt, r0.id)))) =
          S.drop take_ := by
        refine sortedD_eq_of_perm ?_ ?_ ?_
        · exact (sortDesc_perm _).trans hpermN
        · exact sortDesc_sortedD (hnd.filter _)
        · exact hSsorted.sublist (List.drop_sublist _ _)
      have hlenN : (coll.filter (matchesCursor (some (r0.createdAt, r0.id)))).length < fuel := by
        have h1 : (coll.filter (matchesCursor (some (r0.createdAt, r0.id)))).length =
            (S.drop take_).length := hpermN.length_eq
        have h2 : (S.drop take_).length = S.length - take_ := by
          rw [List.length_drop]
        omega
      rw [hunf, hsnd]
      show (page coll c take_).1 ++ walkFeed coll take_ fuel (some (r0.createdAt, r0.id)) = S
      rw [hfst, ih (some (r0.createdAt, r0.id)) hlenN, hsortN, hSsplit]
    · -- short page: everything matching fits, the walk stops here
      have hitems : S.take take_ = S := List.take_of_length_le (by omega)
      have hsnd : (page coll c take_).2 = none := by
        show (if (S.take take_).length = take_
              then (S.take take_).getLast?.map (fun r => (r.createdAt, r.id))
              else none) = none
        rw [if_neg]
        rw [hitems]
        omega
      rw [hunf, hsnd]
      show (page coll c take_).1 = S
      rw [hfst]
      exact hitems

/-- C1: walking the feed from no cursor to exhaustion, passing each returned
`nextCursor` back in, yields each record of a duplicate-free collection exactly
once, in descending `(timestamp, id)` order — ties on equal timestamps broken
by identifier descending. -/
theorem feed_walk_complete (coll : List PostRec) (take_ : Nat) (ht : 0 < take_)
    (hnd : coll.Nodup) :
    List.Perm (walkFeed coll take_ (coll.length + 1) none) coll ∧
    SortedD (walkFeed coll take_ (coll.length + 1) none) := by
  have hfilter : coll.filter (matchesCursor none) = coll :=
    List.filter_eq_self.mpr (fun a _ => rfl)
  have hfuel : (coll.filter (matchesCursor none)).length < coll.length + 1 := by
    rw [hfilter]
    omega
  have hw := walkFeed_eq coll take_ ht hnd (coll.length + 1) none hfuel
  rw [hw, hfilter]
  exact ⟨sortDesc_perm coll, sortDesc_sortedD hnd⟩

/-- Witness instantiating the walk on the §8 scenario: P1 = (100, 1),
P2 = (100, 2), P3 = (200, 3), page size 2. -/
theorem feed_walk_complete_witness :
    0 < 2 ∧ ([⟨100, 1⟩, ⟨100, 2⟩, ⟨200, 3⟩] : List PostRec).Nodup ∧
    (List.Perm (walkFeed [⟨100, 1⟩, ⟨100, 2⟩, ⟨200, 3⟩] 2 4 none)
      [⟨100, 1⟩, ⟨100, 2⟩, ⟨200, 3⟩] ∧
     SortedD (walkFeed [⟨100, 1⟩, ⟨100, 2⟩, ⟨200, 3⟩] 2 4 none)) :=
  ⟨by decide, by decide,
   feed_walk_complete [⟨100, 1⟩, ⟨100, 2⟩, ⟨200, 3⟩] 2 (by decide) (by decide)⟩

/-! ### Text Normalizer: basic lemmas -/

theorem mem_stripCtl {c : Char} {l : List Char} (h : c ∈ stripCtl l) :
    c ∈ l ∧ isStrippedCtl c = false := by
  have h2 := List.mem_filter.mp h
  refine ⟨h2.1, ?_⟩
  have := h2.2
  simpa using this

theorem stripCtl_sub {c : Char} {l : List Char} (h : c ∈ stripCtl l) : c ∈ l :=
  (mem_stripCtl h).1

theorem stripCtl_no_cr (l : List Char) : '\r' ∉ stripCtl l := by
  intro h
  have := (mem_stripCtl h).2
  simp [isStrippedCtl] at this

theorem stripCtl_no_tab (l : List Char) : '\t' ∉ stripCtl l := by
  intro h
  have := (mem_stripCtl h).2
  simp [isStrippedCtl] at this

theorem normalizeCR_cons_ne {c : Char} (rest : List Char) (h : c ≠ '\r') :
    normalizeCR (c :: rest) = c :: normalizeCR rest := by
  rw [normalizeCR.eq_def]
  split <;> simp_all

theorem normalizeCR_of_no_cr : ∀ {l : List Char}, '\r' ∉ l → normalizeCR l = l
  | [], _ => rfl
  | c :: rest, h => by
    have hc : c ≠ '\r' := fun he => h (he ▸ List.mem_cons_self c rest)
    have hr : '\r' ∉ rest := fun hm => h (List.mem_cons_of_mem c hm)
    rw [normalizeCR_cons_ne rest hc, normalizeCR_of_no_cr hr]

theorem splitOnChar_ne_nil (sep : Char) : ∀ l : List Char, splitOnChar sep l ≠ []
  | [] => by simp [splitOnChar]
  | c :: rest => by
    rw [splitOnChar]
    by_cases h : c = sep
    · rw [if_pos h]
      simp
    · rw [if_neg h]
      rcases hrest : splitOnChar sep rest with _ | ⟨l0, ls⟩
      · simp
      · simp

theorem splitOnChar_no_sep (sep : Char) :
    ∀ {l : List Char}, sep ∉ l → splitOnChar sep l = [l]
  | [], _ => rfl
  | c :: rest, h => by
    have hc : c ≠ sep := fun he => h (he ▸ List.mem_cons_self c rest)
    have hr : sep ∉ rest := fun hm => h (List.mem_cons_of_mem c hm)
    rw [splitOnChar, if_neg hc, splitOnChar_no_sep sep hr]

theorem mem_splitOnChar (sep : Char) :
    ∀ {l : List Char} {p : List Char}, p ∈ splitOnChar sep l →
      (∀ {c : Char}, c ∈ p → c ∈ l) ∧ sep ∉ p
  | [], p, hp => by
    simp [splitOnChar] at hp
    subst hp
    exact ⟨fun h => absurd h (List.not_mem_nil _), List.not_mem_nil _⟩
  | c :: rest, p, hp => by
    rw [splitOnChar] at hp
    by_cases hc : c = sep
    · rw [if_pos hc] at hp
      rcases List.mem_cons.mp hp with rfl | hp2
      · exact ⟨fun h => absurd h (List.not_mem_nil _), List.not_mem_nil _⟩
      · have := mem_splitOnChar sep hp2
        exact ⟨fun h => List.mem_cons_of_mem c (this.1 h), this.2⟩
    · rw [if_neg hc] at hp
      rcases hrest : splitOnChar sep rest with _ | ⟨l0, ls⟩
      · exact absurd hrest (splitOnChar_ne_nil sep rest)
      · rw [hrest] at hp
        rcases List.mem_cons.mp hp with rfl | hp2
        · have hl0 : l0 ∈ splitOnChar sep rest := hrest ▸ List.mem_cons_self l0 ls
          have ih := mem_splitOnChar sep hl0
          constructor
          · intro d hd
            rcases List.mem_cons.mp hd with rfl | hd2
            · exact List.mem_cons_self d rest
            · exact List.mem_cons_of_mem c (ih.1 hd2)
          · intro hsep
            rcases List.mem_cons.mp hsep with he | hsep2
            · exact hc he.symm
            · exact ih.2 hsep2
        · have hls : p ∈ splitOnChar sep rest := hrest ▸ List.mem_cons_of_mem l0 hp2
          have ih := mem_splitOnChar sep hls
          exact ⟨fun h => List.mem_cons_of_mem c (ih.1 h), ih.2⟩

theorem mem_collapseWsAux :
    ∀ {b : Bool} {l : List Char} {c : Char}, c ∈ collapseWsAux b l →
      c = ' ' ∨ (c ∈ l ∧ isJsWs c = false)
  | _, [], c, h => absurd h (List.not_mem_nil c)
  | b, d :: rest, c, h => by
    rw [collapseWsAux] at h
    by_cases hd : isJsWs d
    · rw [if_pos hd] at h
      by_cases hb : b
      · subst hb
        rw [if_pos rfl] at h
        rcases mem_collapseWsAux h with h2 | ⟨h2, h3⟩
        · exact Or.inl h2
        · exact Or.inr ⟨List.mem_cons_of_mem d h2, h3⟩
      · rw [Bool.not_eq_true] at hb
        subst hb
        rw [if_neg (by simp)] at h
        rcases List.mem_cons.mp h with rfl | h2
        · exact Or.inl rfl
        · rcases mem_collapseWsAux h2 with h3 | ⟨h3, h4⟩
          · exact Or.inl h3
          · exact Or.inr ⟨List.mem_cons_of_mem d h3, h4⟩
    · rw [if_neg hd] at h
      rcases List.mem_cons.mp h with rfl | h2
      · exact Or.inr ⟨List.mem_cons_self c rest, by simpa using hd⟩
      · rcases mem_collapseWsAux h2 with h3 | ⟨h3, h4⟩
        · exact Or.inl h3
        · exact Or.inr ⟨List.mem_cons_of_mem d h3, h4⟩

theorem mem_trimWs {c : Char} {l : List Char} (h : c ∈ trimWs l) : c ∈ l := by
  unfold trimWs at h
  have h1 := List.mem_reverse.mp h
  have h2 := (List.dropWhile_suffix isJsWs).sublist.mem h1
  have h3 := List.mem_reverse.mp h2
  exact (List.dropWhile_suffix isJsWs).sublist.mem h3

theorem mem_joinNl :
    ∀ {ls : List (List Char)} {c : Char}, c ∈ joinNl ls →
      c = '\n' ∨ ∃ p ∈ ls, c ∈ p
  | [], c, h => absurd h (List.not_mem_nil c)
  | [l], c, h => Or.inr ⟨l, List.mem_cons_self l [], h⟩
  | l :: l2 :: ls, c, h => by
    rw [show joinNl (l :: l2 :: ls) = l ++ '\n' :: joinNl (l2 :: ls) from rfl] at h
    rcases List.mem_append.mp h with h1 | h2
    · exact Or.inr ⟨l, List.mem_cons_self _ _, h1⟩
    · rcases List.mem_cons.mp h2 with rfl | h3
      · exact Or.inl rfl
      · rcases mem_joinNl h3 with h4 | ⟨p, hp, hc⟩
        · exact Or.inl h4
        · exact Or.inr ⟨p, List.mem_cons_of_mem l hp, hc⟩

/-- The `\r\n?` pass is the identity on stripped text: `\r` is itself a
stripped control character, so it never reaches that pass. -/
theorem sanitize_pipeline (raw : List Char) :
    sanitizeTweetText raw =
      trimWs (joinNl ((splitOnNl (stripCtl raw)).map (fun l => trimWs (collapseWs l)))) := by
  show trimWs (joinNl ((splitOnNl (normalizeCR (stripCtl raw))).map
    (fun l => trimWs (collapseWs l)))) = _
  rw [normalizeCR_of_no_cr (stripCtl_no_cr raw)]

theorem dropWhile_length_le (p : Char → Bool) (l : List Char) :
    (l.dropWhile p).length ≤ l.length :=
  (List.dropWhile_suffix p).sublist.length_le

theorem trimWs_length_le (l : List Char) : (trimWs l).length ≤ l.length := by
  unfold trimWs
  rw [List.length_reverse]
  calc ((l.dropWhile isJsWs).reverse.dropWhile isJsWs).length
      ≤ (l.dropWhile isJsWs).reverse.length := dropWhile_length_le _ _
    _ = (l.dropWhile isJsWs).length := List.length_reverse _
    _ ≤ l.length := dropWhile_length_le _ _

theorem collapseWsAux_length_le : ∀ (b : Bool) (l : List Char),
    (collapseWsAux b l).length ≤ l.length
  | _, [] => Nat.le_refl 0
  | b, c :: rest => by
    rw [collapseWsAux]
    by_cases hc : isJsWs c
    · rw [if_pos hc]
      by_cases hb : b
      · subst hb
        rw [if_pos rfl]
        exact Nat.le_succ_of_le (collapseWsAux_length_le true rest)
      · rw [Bool.not_eq_true] at hb
        subst hb
        rw [if_neg (by simp)]
        simpa using Nat.succ_le_succ (collapseWsAux_length_le true rest)
    · rw [if_neg hc]
      simpa using Nat.succ_le_succ (collapseWsAux_length_le false rest)

/-- C7 part: control characters never appear in the normalizer's output. -/
theorem sanitize_no_ctl (raw : List Char) :
    ∀ c ∈ sanitizeTweetText raw, isStrippedCtl c = false := by
  intro c hc
  rw [sanitize_pipeline] at hc
  have h1 := mem_trimWs hc
  rcases mem_joinNl h1 with rfl | ⟨q, hq, hcq⟩
  · decide
  · rcases List.mem_map.mp hq with ⟨p, hp, rfl⟩
    have h2 := mem_trimWs hcq
    rcases mem_collapseWsAux h2 with rfl | ⟨h3, _⟩
    · decide
    · exact (mem_stripCtl ((mem_splitOnChar '\n' hp).1 h3)).2

/-- C7 part: on single-line input the output is no longer than the input's
visible character count (the characters surviving control stripping). -/
theorem sanitize_single_line_length (raw : List Char) (h : '\n' ∉ raw) :
    (sanitizeTweetText raw).length ≤ visibleCount raw := by
  rw [sanitize_pipeline]
  have hnl : '\n' ∉ stripCtl raw := fun hm => h (stripCtl_sub hm)
  rw [show splitOnNl (stripCtl raw) = [stripCtl raw] from splitOnChar_no_sep '\n' hnl]
  show (trimWs (joinNl [trimWs (collapseWs (stripCtl raw))])).length ≤ visibleCount raw
  show (trimWs (trimWs (collapseWs (stripCtl raw)))).length ≤ visibleCount raw
  calc (trimWs (trimWs (collapseWs (stripCtl raw)))).length
      ≤ (trimWs (collapseWs (stripCtl raw))).length := trimWs_length_le _
    _ ≤ (collapseWs (stripCtl raw)).length := trimWs_length_le _
    _ ≤ (stripCtl raw).length := collapseWsAux_length_le false _
    _ = visibleCount raw := rfl

/-! ### Canonical form of normalized text

`sanitizeTweetText` is idempotent because its output is *canonical*: free of
stripped control characters, with every whitespace character either a single
interior `' '` or a line-break `'\n'`, no whitespace at either end, and no
space adjacent to another space or to a line break. Canonical strings are
fixed points of every pass of the pipeline. -/

/-- Adjacent-pair discipline of canonical text: two adjacent whitespace
characters are only allowed when both are line breaks. -/
def wsOk (a b : Char) : Prop := isJsWs a = true → isJsWs b = true → a = '\n' ∧ b = '\n'

/-- Adjacent-pair discipline inside one line: no two adjacent whitespace
characters at all. -/
def noWsPair (a b : Char) : Prop := ¬(isJsWs a = true ∧ isJsWs b = true)

/-- A line as it appears in the interior of canonical text: no line break, all
whitespace is `' '`, no two adjacent whitespace characters, and no trailing
whitespace. (The no-leading-whitespace condition is tracked separately.) -/
def LineMid (p : List Char) : Prop :=
  '\n' ∉ p ∧ (∀ c ∈ p, isJsWs c = true → c = ' ') ∧
  p.Chain' noWsPair ∧ (∀ c, p.getLast? = some c → isJsWs c = false)

/-- Canonical text: what `sanitizeTweetText` produces and leaves unchanged. -/
def canonical (l : List Char) : Prop :=
  (∀ c ∈ l, isStrippedCtl c = false) ∧
  (∀ c ∈ l, isJsWs c = true → c = ' ' ∨ c = '\n') ∧
  l.Chain' wsOk ∧
  (∀ c, l.head? = some c → isJsWs c = false) ∧
  (∀ c, l.getLast? = some c → isJsWs c = false)

theorem collapseWsAux_false_of_head {l : List Char}
    (h : ∀ c, l.head? = some c → isJsWs c = false) (b : Bool) :
    collapseWsAux b l = collapseWsAux false l := by
  cases l with
  | nil => rfl
  | cons c rest =>
    have hc := h c rfl
    rw [collapseWsAux, collapseWsAux, if_neg (by simp [hc]), if_neg (by simp [hc])]

theorem collapseWs_eq_self : ∀ {p : List Char},
    (∀ c ∈ p, isJsWs c = true → c = ' ') → p.Chain' noWsPair → collapseWs p = p
  | [], _, _ => rfl
  | c :: rest, hws, hch => by
    have hrel := (List.chain'_cons'.mp hch).1
    have hch2 := (List.chain'_cons'.mp hch).2
    have hws2 : ∀ d ∈ rest, isJsWs d = true → d = ' ' :=
      fun d hd => hws d (List.mem_cons_of_mem c hd)
    show collapseWsAux false (c :: rest) = c :: rest
    by_cases hc : isJsWs c = true
    · have hsp : c = ' ' := hws c (List.mem_cons_self c rest) hc
      have hhead : ∀ d, rest.head? = some d → isJsWs d = false := by
        intro d hd
        have := hrel d hd
        unfold noWsPair at this
        by_cases hdws : isJsWs d = true
        · exact absurd ⟨hc, hdws⟩ this
        · simpa using hdws
      rw [collapseWsAux, if_pos hc, if_neg (by simp)]
      rw [collapseWsAux_false_of_head hhead true]
      show ' ' :: collapseWs rest = c :: rest
      rw [collapseWs_eq_self hws2 hch2, hsp]
    · rw [collapseWsAux, if_neg hc]
      show c :: collapseWs rest = c :: rest
      rw [collapseWs_eq_self hws2 hch2]

theorem dropWhile_eq_self_of_head {p : Char → Bool} {l : List Char}
    (h : ∀ c, l.head? = some c → p c = false) : l.dropWhile p = l := by
  cases l with
  | nil => rfl
  | cons c rest => rw [List.dropWhile_cons, if_neg (by simp [h c rfl])]

theorem trimWs_eq_self {l : List Char}
    (hh : ∀ c, l.head? = some c → isJsWs c = false)
    (hl : ∀ c, l.getLast? = some c → isJsWs c = false) : trimWs l = l := by
  unfold trimWs
  rw [dropWhile_eq_self_of_head hh]
  rw [dropWhile_eq_self_of_head (fun c hc => hl c (List.head?_reverse l ▸ hc))]
  rw [List.reverse_reverse]

theorem joinNl_cons_cons (p q : List Char) (ls : List (List Char)) :
    joinNl (p :: q :: ls) = p ++ '\n' :: joinNl (q :: ls) := rfl

theorem joinNl_splitOnNl : ∀ l : List Char, joinNl (splitOnNl l) = l
  | [] => rfl
  | c :: rest => by
    show joinNl (splitOnChar '\n' (c :: rest)) = c :: rest
    have hrec : joinNl (splitOnChar '\n' rest) = rest := joinNl_splitOnNl rest
    rw [splitOnChar]
    by_cases hc : c = '\n'
    · rw [if_pos hc]
      rcases hrest : splitOnChar '\n' rest with _ | ⟨r0, rs⟩
      · exact absurd hrest (splitOnChar_ne_nil _ rest)
      · rw [hrest] at hrec
        rw [joinNl_cons_cons, hrec, hc]
        rfl
    · rw [if_neg hc]
      rcases hrest : splitOnChar '\n' rest with _ | ⟨r0, rs⟩
      · exact absurd hrest (splitOnChar_ne_nil _ rest)
      · rw [hrest] at hrec
        have hj : joinNl ((c :: r0) :: rs) = c :: joinNl (r0 :: rs) := by
          cases rs with
          | nil => rfl
          | cons q qs =>
            rw [joinNl_cons_cons, joinNl_cons_cons]
            rfl
        rw [hj, hrec]

theorem mem_of_head? {c : Char} {l : List Char} (h : l.head? = some c) : c ∈ l := by
  cases l with
  | nil => cases h
  | cons d rest =>
    injection h with h1
    exact h1 ▸ List.mem_cons_self d rest

/-- Splitting canonical text on `'\n'` yields lines that are themselves
canonical for the per-line passes: the first line satisfies `LineMid` (and
inherits its head from the whole string), and every later line additionally
starts with a non-whitespace character. -/
theorem splitOnNl_canon :
    ∀ l : List Char,
      (∀ c ∈ l, isJsWs c = true → c = ' ' ∨ c = '\n') →
      l.Chain' wsOk →
      (∀ c, l.getLast? = some c → isJsWs c = false ∨ c = '\n') →
      ∃ l0 ls, splitOnNl l = l0 :: ls ∧ LineMid l0 ∧
        (∀ p ∈ ls, LineMid p ∧ (∀ c, p.head? = some c → isJsWs c = false)) ∧
        (∀ c, l0.head? = some c → l.head? = some c) ∧
        (l0 = [] → l = [] ∨ l.head? = some '\n')
  | [], _, _, _ => by
    refine ⟨[], [], rfl, ?_, ?_, ?_, fun _ => Or.inl rfl⟩
    · exact ⟨List.not_mem_nil _, fun c hc => absurd hc (List.not_mem_nil c),
        List.chain'_nil, fun c hc => by cases hc⟩
    · intro p hp
      exact absurd hp (List.not_mem_nil p)
    · intro c hc
      cases hc
  | c :: rest, hws, hch, hlast => by
    have hrel := (List.chain'_cons'.mp hch).1
    have hch2 := (List.chain'_cons'.mp hch).2
    have hws2 : ∀ d ∈ rest, isJsWs d = true → d = ' ' ∨ d = '\n' :=
      fun d hd => hws d (List.mem_cons_of_mem c hd)
    have hlast2 : ∀ d, rest.getLast? = some d → isJsWs d = false ∨ d = '\n' := by
      intro d hd
      cases rest with
      | nil => cases hd
      | cons e rest2 =>
        refine hlast d ?_
        rw [List.getLast?_cons_cons]
        exact hd
    obtain ⟨r0, rs, hsplit, hmid, hls, htrans, hempty⟩ :=
      splitOnNl_canon rest hws2 hch2 hlast2
    by_cases hc : c = '\n'
    · refine ⟨[], r0 :: rs, ?_, ?_, ?_, ?_, fun _ => Or.inr (by subst hc; rfl)⟩
      · show splitOnChar '\n' (c :: rest) = [] :: r0 :: rs
        rw [splitOnChar, if_pos hc]
        rw [show splitOnNl rest = splitOnChar '\n' rest from rfl] at hsplit
        rw [hsplit]
      · exact ⟨List.not_mem_nil _, fun d hd => absurd hd (List.not_mem_nil d),
          List.chain'_nil, fun d hd => by cases hd⟩
      · intro p hp
        rcases List.mem_cons.mp hp with rfl | hp2
        · refine ⟨hmid, ?_⟩
          intro d hd
          have hdrest : rest.head? = some d := htrans d hd
          have hwsok : wsOk c d := hrel d hdrest
          by_cases hdws : isJsWs d = true
          · have := (hwsok (by rw [hc]; decide) hdws).2
            exact absurd (this ▸ mem_of_head? hd) hmid.1
          · simpa using hdws
        · exact hls p hp2
      · intro d hd
        cases hd
    · refine ⟨c :: r0, rs, ?_, ?_, fun p hp => hls p hp, ?_, ?_⟩
      · show splitOnChar '\n' (c :: rest) = (c :: r0) :: rs
        rw [splitOnChar, if_neg hc]
        rw [show splitOnNl rest = splitOnChar '\n' rest from rfl] at hsplit
        rw [hsplit]
      · obtain ⟨hnm, hwsl, hchl, hlastl⟩ := hmid
        refine ⟨?_, ?_, ?_, ?_⟩
        · intro hmem
          rcases List.mem_cons.mp hmem with he | hm
          · exact hc he.symm
          · exact hnm hm
        · intro d hd hdws
          rcases List.mem_cons.mp hd with rfl | hm
          · rcases hws d (List.mem_cons_self d rest) hdws with h | h
            · exact h
            · exact absurd h hc
          · exact hwsl d hm hdws
        · rw [List.chain'_cons']
          refine ⟨?_, hchl⟩
          intro y hy
          have hyrest : rest.head? = some y := htrans y hy
          have hwsok : wsOk c y := hrel y hyrest
          intro ⟨hcw, hyw⟩
          exact hc (hwsok hcw hyw).1
        · intro d hd
          cases r0 with
          | nil =>
            have hdc : d = c := by
              injection hd with h1
              exact h1.symm
            subst hdc
            rcases hempty rfl with hre | hrh
            · subst hre
              rcases hlast d rfl with h | h
              · exact h
              · exact absurd h hc
            · have hwsok : wsOk d '\n' := hrel '\n' hrh
              by_cases hdws : isJsWs d = true
              · exact absurd (hwsok hdws (by decide)).1 hc
              · simpa using hdws
          | cons e r0' =>
            refine hlastl d ?_
            rw [List.getLast?_cons_cons] at hd
            exact hd
      · intro d hd
        injection hd with h1
        rw [← h1]
        rfl
      · intro h0
        cases h0

/-- Canonical text is a fixed point of the whole normalizer. -/
theorem sanitize_of_canonical {l : List Char} (hcanon : canonical l) :
    sanitizeTweetText l = l := by
  obtain ⟨hctl, hwsc, hch, hhead, hlast⟩ := hcanon
  have hstrip : stripCtl l = l :=
    List.filter_eq_self.mpr (fun c hc => by rw [hctl c hc]; rfl)
  have hlast2 : ∀ c, l.getLast? = some c → isJsWs c = false ∨ c = '\n' :=
    fun c hc => Or.inl (hlast c hc)
  obtain ⟨l0, ls, hsplit, hmid, hls, htrans, _⟩ := splitOnNl_canon l hwsc hch hlast2
  have hf : ∀ p ∈ splitOnNl l, trimWs (collapseWs p) = p := by
    intro p hp
    rw [hsplit] at hp
    rcases List.mem_cons.mp hp with rfl | hp2
    · obtain ⟨hnm, hwsl, hchl, hlastl⟩ := hmid
      have hh : ∀ c, p.head? = some c → isJsWs c = false :=
        fun c hc => hhead c (htrans c hc)
      rw [collapseWs_eq_self hwsl hchl, trimWs_eq_self hh hlastl]
    · obtain ⟨⟨hnm, hwsl, hchl, hlastl⟩, hh⟩ := hls p hp2
      rw [collapseWs_eq_self hwsl hchl, trimWs_eq_self hh hlastl]
  rw [sanitize_pipeline, hstrip]
  rw [List.map_congr_left hf, List.map_id', joinNl_splitOnNl]
  exact trimWs_eq_self hhead hlast

/-- The head of a collapsed run continuation is never whitespace. -/
theorem collapseWsAux_true_head :
    ∀ {l : List Char} {c : Char}, (collapseWsAux true l).head? = some c →
      isJsWs c = false
  | [], c, h => by cases h
  | d :: rest, c, h => by
    rw [collapseWsAux] at h
    by_cases hd : isJsWs d = true
    · rw [if_pos hd, if_pos rfl] at h
      exact collapseWsAux_true_head h
    · rw [if_neg hd] at h
      injection h with h1
      rw [← h1]
      simpa using hd

/-- Collapsing leaves no two adjacent whitespace characters. -/
theorem collapseWsAux_chain : ∀ (b : Bool) (l : List Char),
    (collapseWsAux b l).Chain' noWsPair
  | _, [] => List.chain'_nil
  | b, c :: rest => by
    rw [collapseWsAux]
    by_cases hc : isJsWs c = true
    · rw [if_pos hc]
      by_cases hb : b = true
      · subst hb
        rw [if_pos rfl]
        exact collapseWsAux_chain true rest
      · rw [Bool.not_eq_true] at hb
        subst hb
        rw [if_neg (by simp)]
        rw [List.chain'_cons']
        refine ⟨?_, collapseWsAux_chain true rest⟩
        intro y hy
        rintro ⟨_, hyw⟩
        rw [collapseWsAux_true_head hy] at hyw
        cases hyw
    · rw [if_neg hc]
      rw [List.chain'_cons']
      refine ⟨?_, collapseWsAux_chain false rest⟩
      intro y hy
      rintro ⟨hcw, _⟩
      exact hc hcw

theorem head?_dropWhile {p : Char → Bool} :
    ∀ {l : List Char} {c : Char}, (l.dropWhile p).head? = some c → p c = false
  | [], c, h => by cases h
  | d :: rest, c, h => by
    rw [List.dropWhile_cons] at h
    by_cases hd : p d = true
    · rw [if_pos hd] at h
      exact head?_dropWhile h
    · rw [if_neg hd] at h
      injection h with h1
      rw [← h1]
      simpa using hd

theorem head?_of_isPre {l₁ l₂ : List Char} (h : List.IsPrefix l₁ l₂) {c : Char}
    (hc : l₁.head? = some c) : l₂.head? = some c := by
  obtain ⟨t, rfl⟩ := h
  cases l₁ with
  | nil => cases hc
  | cons d r => exact hc

/-- Trimming only removes characters from the ends of the leading-trimmed
string. -/
theorem trimWs_prefix_dropWhile (l : List Char) :
    List.IsPrefix (trimWs l) (l.dropWhile isJsWs) := by
  unfold trimWs
  have h1 : (l.dropWhile isJsWs).reverse.dropWhile isJsWs <:+ (l.dropWhile isJsWs).reverse :=
    List.dropWhile_suffix _
  have h2 := List.reverse_prefix.mpr h1
  rwa [List.reverse_reverse] at h2

theorem trimWs_head {l : List Char} {c : Char} (h : (trimWs l).head? = some c) :
    isJsWs c = false :=
  head?_dropWhile (head?_of_isPre (trimWs_prefix_dropWhile l) h)

theorem trimWs_last {l : List Char} {c : Char} (h : (trimWs l).getLast? = some c) :
    isJsWs c = false := by
  unfold trimWs at h
  rw [List.getLast?_reverse] at h
  exact head?_dropWhile h

theorem trimWs_chain {R : Char → Char → Prop} {l : List Char} (h : l.Chain' R) :
    (trimWs l).Chain' R :=
  List.Chain'.prefix (h.suffix (List.dropWhile_suffix _)) (trimWs_prefix_dropWhile l)

theorem joinNl_head :
    ∀ {ps : List (List Char)} {c : Char},
      (∀ p ∈ ps, ∀ d, p.head? = some d → isJsWs d = false) →
      (joinNl ps).head? = some c → isJsWs c = false ∨ c = '\n'
  | [], c, _, h => by cases h
  | [q], c, hp, h => Or.inl (hp q (List.mem_cons_self q []) c h)
  | q :: q2 :: qs, c, hp, h => by
    rw [joinNl_cons_cons] at h
    cases q with
    | nil =>
      injection h with h1
      exact Or.inr h1.symm
    | cons d r =>
      injection h with h1
      refine Or.inl (h1 ▸ hp (d :: r) (List.mem_cons_self _ _) d rfl)

theorem joinNl_chain :
    ∀ {ps : List (List Char)},
      (∀ p ∈ ps, p.Chain' noWsPair ∧
        (∀ d, p.head? = some d → isJsWs d = false) ∧
        (∀ d, p.getLast? = some d → isJsWs d = false)) →
      (joinNl ps).Chain' wsOk
  | [], _ => List.chain'_nil
  | [q], hp =>
    ((hp q (List.mem_cons_self q [])).1).imp
      (fun a b hnp ha hb => absurd ⟨ha, hb⟩ hnp)
  | q :: q2 :: qs, hp => by
    rw [joinNl_cons_cons]
    rw [List.chain'_append]
    have hqs : ∀ p ∈ q2 :: qs, p.Chain' noWsPair ∧
        (∀ d, p.head? = some d → isJsWs d = false) ∧
        (∀ d, p.getLast? = some d → isJsWs d = false) :=
      fun p hm => hp p (List.mem_cons_of_mem q hm)
    refine ⟨((hp q (List.mem_cons_self _ _)).1).imp
      (fun a b hnp ha hb => absurd ⟨ha, hb⟩ hnp), ?_, ?_⟩
    · rw [List.chain'_cons']
      refine ⟨?_, joinNl_chain hqs⟩
      intro y hy
      intro _ hyws
      rcases joinNl_head (fun p hm d hd => (hqs p hm).2.1 d hd) hy with h | h
      · rw [h] at hyws
        cases hyws
      · exact ⟨rfl, h⟩
    · intro x hx y hy
      intro hxws _
      have hxl : q.getLast? = some x := hx
      rw [(hp q (List.mem_cons_self _ _)).2.2 x hxl] at hxws
      cases hxws

/-- The normalizer's output is canonical. -/
theorem sanitize_canonical (raw : List Char) : canonical (sanitizeTweetText raw) := by
  refine ⟨sanitize_no_ctl raw, ?_, ?_, ?_, ?_⟩
  · intro c hc hws
    rw [sanitize_pipeline] at hc
    have h1 := mem_trimWs hc
    rcases mem_joinNl h1 with rfl | ⟨q, hq, hcq⟩
    · exact Or.inr rfl
    · rcases List.mem_map.mp hq with ⟨p, hp, rfl⟩
      have h2 := mem_trimWs hcq
      rcases mem_collapseWsAux h2 with rfl | ⟨h3, h4⟩
      · exact Or.inl rfl
      · rw [hws] at h4
        cases h4
  · rw [sanitize_pipeline]
    refine trimWs_chain (joinNl_chain ?_)
    intro p hp
    rcases List.mem_map.mp hp with ⟨q, hq, rfl⟩
    exact ⟨trimWs_chain (collapseWsAux_chain false q),
      fun d hd => trimWs_head hd, fun d hd => trimWs_last hd⟩
  · rw [sanitize_pipeline]
    intro c hc
    exact trimWs_head hc
  · rw [sanitize_pipeline]
    intro c hc
    exact trimWs_last hc

/-- C7: the normalizer is idempotent, its output never contains a stripped
control character, and on single-line input its output is no longer than the
input's visible character count. -/
theorem sanitize_props (s : List Char) :
    sanitizeTweetText (sanitizeTweetText s) = sanitizeTweetText s ∧
    (∀ c ∈ sanitizeTweetText s, isStrippedCtl c = false) ∧
    ('\n' ∉ s → (sanitizeTweetText s).length ≤ visibleCount s) :=
  ⟨sanitize_of_canonical (sanitize_canonical s), sanitize_no_ctl s,
   fun h => sanitize_single_line_length s h⟩

theorem sanitize_props_witness :
    ('\n' ∉ ([' ', 'a', ' ', ' ', 'b'] : List Char)) ∧
    (sanitizeTweetText (sanitizeTweetText [' ', 'a', ' ', ' ', 'b']) =
       sanitizeTweetText [' ', 'a', ' ', ' ', 'b'] ∧
     (∀ c ∈ sanitizeTweetText [' ', 'a', ' ', ' ', 'b'], isStrippedCtl c = false) ∧
     (sanitizeTweetText [' ', 'a', ' ', ' ', 'b']).length ≤
       visibleCount [' ', 'a', ' ', ' ', 'b']) :=
  ⟨by decide, (sanitize_props [' ', 'a', ' ', ' ', 'b']).1,
   (sanitize_props [' ', 'a', ' ', ' ', 'b']).2.1,
   (sanitize_props [' ', 'a', ' ', ' ', 'b']).2.2 (by decide)⟩

end Tweaker
